import Mathlib

/-!
# Verification of the `modelize` object-wrapping utility

A shallow embedding of `src/modelize.ts`: a Proxy wrapper over a plain data
object providing dirty tracking, lazy validation (JSON-schema engine plus an
optional custom predicate), a restore-to-initial operation backed by a deep
clone, bulk update, strict-mode write/delete policy, and a minimal
publish/subscribe hub (`createPubSub`).

JavaScript values are modelled as primitives plus references into an explicit
heap of container cells (key-value objects and arrays), so that reference
(`===`) equality, in-place mutation of nested containers and the deep-clone
snapshot isolation are all faithfully representable.  Machine-level recursion
(`deepClone`) is given an explicit fuel argument by structural recursion on
the fuel, so every definition is executable and reduces in the kernel.
-/

namespace Modelize

/-- A JavaScript primitive value: `undefined`, `null`, booleans, numbers and
strings (numbers are modelled as integers; the claims never involve
floating-point behaviour). -/
inductive Prim where
  | undef
  | null
  | bool (b : Bool)
  | num (n : Int)
  | str (s : String)
deriving DecidableEq, Repr

/-- A JavaScript value: a primitive, or a reference (address) to a container
cell in the heap.  `===` on this type is plain decidable equality: structural
on primitives, address equality on references, exactly like JS strict
equality on non-NaN values. -/
inductive Value where
  | prim (p : Prim)
  | ref (a : Nat)
deriving DecidableEq, Repr

/-- A plain data object: insertion-ordered own enumerable string-keyed
fields, as a JS object literal has. -/
abbrev Obj := List (String × Value)

/-- A heap cell: a key-value object or an array. -/
inductive HCell where
  | obj (fields : Obj)
  | arr (elems : List Value)
deriving DecidableEq, Repr

/-- The heap: addresses are list indices; allocation appends. -/
abbrev Heap := List HCell

/-- Property read on an object (`target[key]`): first matching key, `none`
when absent (JS `undefined`). -/
def Obj.get : Obj → String → Option Value
  | [], _ => none
  | (k', v) :: rest, k => if k' = k then some v else Obj.get rest k

/-- The JS `key in target` test for a plain data object with no prototype
keys of interest: own-key membership. -/
def Obj.hasKey : Obj → String → Bool
  | [], _ => false
  | (k', _) :: rest, k => k' = k || Obj.hasKey rest k

/-- Property assignment (`target[key] = v`): replaces the value in place when
the key exists (keeping its position, as JS does), otherwise appends the new
key at the end (JS insertion order). -/
def Obj.set : Obj → String → Value → Obj
  | [], k, v => [(k, v)]
  | (k', v') :: rest, k, v =>
    if k' = k then (k, v) :: rest else (k', v') :: Obj.set rest k v

/-- Property deletion (`delete target[key]`). -/
def Obj.del : Obj → String → Obj
  | [], _ => []
  | (k', v') :: rest, k =>
    if k' = k then Obj.del rest k else (k', v') :: Obj.del rest k

/-! ## Deep clone (`deepClone` in the source)

The source recursively copies arrays element-wise and objects field-wise and
returns any non-container value as-is.  The recursion is through the heap, so
the model takes an explicit fuel; the fuel only has to exceed the depth of
the (acyclic) structure being cloned.  Each cloned container is allocated at
a fresh address (the model allocates a container after its fields; addresses
themselves are unobservable, only reference equality is). -/

/-- Field-wise cloning walk, parameterised by the value cloner `c`, threading
the heap left to right (the `for key in obj` loop of `deepClone`). -/
def cloneFieldsWith (c : Heap → Value → Option (Value × Heap)) :
    Heap → Obj → Option (Obj × Heap)
  | h, [] => some ([], h)
  | h, (k, v) :: rest =>
    match c h v with
    | none => none
    | some (v', h') =>
      match cloneFieldsWith c h' rest with
      | none => none
      | some (rest', h'') => some ((k, v') :: rest', h'')

/-- Element-wise cloning walk for arrays (the `obj.map(deepClone)` branch). -/
def cloneElemsWith (c : Heap → Value → Option (Value × Heap)) :
    Heap → List Value → Option (List Value × Heap)
  | h, [] => some ([], h)
  | h, v :: rest =>
    match c h v with
    | none => none
    | some (v', h') =>
      match cloneElemsWith c h' rest with
      | none => none
      | some (rest', h'') => some (v' :: rest', h'')

/-- `deepClone`: primitives are returned as-is; a reference is dereferenced
and its container is copied recursively into freshly allocated cells.
Structural recursion on the fuel, so it reduces definitionally. -/
def deepCloneVal : Nat → Heap → Value → Option (Value × Heap)
  | 0 => fun _ _ => none
  | fuel + 1 => fun h v =>
    match v with
    | .prim p => some (.prim p, h)
    | .ref a =>
      match h[a]? with
      | none => none
      | some (.obj o) =>
        match cloneFieldsWith (deepCloneVal fuel) h o with
        | none => none
        | some (o', h') => some (.ref h'.length, h' ++ [.obj o'])
      | some (.arr l) =>
        match cloneElemsWith (deepCloneVal fuel) h l with
        | none => none
        | some (l', h') => some (.ref h'.length, h' ++ [.arr l'])

/-! ## Abstraction of a heap value as a pure tree

`Tree` is the heap-independent deep structure of a value; two values are
"deeply equal" exactly when they abstract to the same tree.  The abstraction
walks the heap with the same fuel discipline as `deepCloneVal`. -/

/-- The pure deep structure of a JS value. -/
inductive Tree where
  | leaf (p : Prim)
  | node (fields : List (String × Tree))
  | arrNode (elems : List Tree)

/-- Field-wise abstraction walk. -/
def traverseFields (f : Value → Option Tree) : Obj → Option (List (String × Tree))
  | [] => some []
  | (k, v) :: rest =>
    match f v with
    | none => none
    | some t =>
      match traverseFields f rest with
      | none => none
      | some ts => some ((k, t) :: ts)

/-- Element-wise abstraction walk. -/
def traverseElems (f : Value → Option Tree) : List Value → Option (List Tree)
  | [] => some []
  | v :: rest =>
    match f v with
    | none => none
    | some t =>
      match traverseElems f rest with
      | none => none
      | some ts => some (t :: ts)

/-- Abstract a value to its deep tree structure, with fuel. -/
def abstractVal : Nat → Heap → Value → Option Tree
  | 0 => fun _ _ => none
  | fuel + 1 => fun h v =>
    match v with
    | .prim p => some (.leaf p)
    | .ref a =>
      match h[a]? with
      | none => none
      | some (.obj o) => (traverseFields (abstractVal fuel h) o).map .node
      | some (.arr l) => (traverseElems (abstractVal fuel h) l).map .arrNode

/-! ## Validation data -/

/-- A translated validation error `{path, message}`. -/
structure ValidationError where
  path : String
  message : String
deriving DecidableEq, Repr

/-- A raw error record as reported by the external schema engine (AJV's
`ErrorObject`, restricted to the two consumed fields).  An absent / empty
`instancePath` and an absent `message` are both modelled as `""` since the
source treats them with `||` (falsy) defaults. -/
structure AjvError where
  instancePath : String
  message : String
deriving DecidableEq, Repr

/-- `ajvErrorsToValidationErrors` on one record: path defaults to the root
token `"/"`, message defaults to a fixed fallback. -/
def ajvErrorToValidationError (e : AjvError) : ValidationError :=
  { path := if e.instancePath = "" then "/" else e.instancePath
    message := if e.message = "" then "Unknown validation error" else e.message }

/-- `ModelizeOptions`: the construction configuration.  The compiled schema
validator is modelled as a black-box function from the current heap and
model to AJV's `(valid, errors)` observation; the custom validator returns
`none` for the literal `true` and `some s` for an error-message string. -/
structure ModelizeOptions where
  schema : Option (Heap → Obj → Bool × List AjvError)
  validate : Option (Heap → Obj → Option String)
  strict : Bool

/-- The reserved method/accessor names of the wrapper (`RESERVED_NAMES`). -/
def RESERVED_NAMES : List String :=
  ["__dirty", "__isDirty", "__isValid", "__source", "__initial", "__errors",
   "__validate", "__reset", "__resetToInitial", "__hydrate", "subscribe"]

/-- The wrapper's internal state: the heap, the live underlying model
(`source`, the proxy target), the deep-cloned initial snapshot's top-level
object (`initial`), the dirty key set (insertion-ordered, duplicate-free as
a JS `Set` is), and the last validation error list (`lastErrors`). -/
structure MState where
  heap : Heap
  src : Obj
  initial : Obj
  dirty : List String
  lastErrors : List ValidationError
deriving DecidableEq, Repr

/-- `dirty.add k`: a JS `Set.add` — appends only when not present. -/
def addDirty (d : List String) (k : String) : List String :=
  if k ∈ d then d else d ++ [k]

/-- The payload of a published notification.  The wrapper only ever publishes
the wrapper (proxy) itself; the pub/sub primitive is generic in the payload. -/
inductive Payload where
  | wrapper
  | other
deriving DecidableEq, Repr

/-- The errors thrown by the proxy traps. -/
inductive ProxyError where
  | reservedProp (k : String)
  | unknownProp (k : String)
  | strictDelete (k : String)
deriving DecidableEq, Repr

/-- `doValidate`: run the compiled schema validator (if configured) against
the current model, translating its errors on failure; then run the custom
validator (if configured), a non-`true` result contributing exactly one
root-path entry; valid iff the merged list is empty.  Both stages always run
when configured — no short-circuit. -/
def doValidate (cfg : ModelizeOptions) (h : Heap) (src : Obj) :
    Bool × List ValidationError :=
  let schemaErrors :=
    match cfg.schema with
    | none => []
    | some sv =>
      let r := sv h src
      if r.1 then [] else r.2.map ajvErrorToValidationError
  let customErrors :=
    match cfg.validate with
    | none => []
    | some cv =>
      match cv h src with
      | none => []
      | some s => [{ path := "/", message := s }]
  let errors := schemaErrors ++ customErrors
  (errors.isEmpty, errors)

/-- The `set` proxy trap: reserved-name check, then strict-mode check (both
before the old value is read and before any assignment); then read the old
value, assign, and — the assignment on a plain data object succeeding — add
the key to the dirty set and publish one change notification exactly when
the old value differs by strict equality.  On a thrown error the returned
state is the unchanged input state. -/
def setProp (cfg : ModelizeOptions) (st : MState) (k : String) (v : Value) :
    MState × Option ProxyError × List Payload :=
  if RESERVED_NAMES.contains k then (st, some (.reservedProp k), [])
  else if cfg.strict && !(Obj.hasKey st.src k) then (st, some (.unknownProp k), [])
  else
    let oldValue := (Obj.get st.src k).getD (.prim .undef)
    let src' := Obj.set st.src k v
    if oldValue = v then ({ st with src := src' }, none, [])
    else ({ st with src := src', dirty := addDirty st.dirty k }, none, [.wrapper])

/-- The `deleteProperty` proxy trap: in strict mode it throws before touching
anything; otherwise the delete proceeds (`Reflect.deleteProperty` succeeds on
a plain data object) and one notification is published unconditionally on
success.  The dirty set is never consulted or modified. -/
def deleteProperty (cfg : ModelizeOptions) (st : MState) (k : String) :
    MState × Option ProxyError × List Payload :=
  if cfg.strict then (st, some (.strictDelete k), [])
  else ({ st with src := Obj.del st.src k }, none, [.wrapper])

/-- The `__hydrate` key loop: for each mapping entry in order, the strict
check (throwing aborts the loop, keeping the state mutated so far), then the
old-vs-new compare-assign-mark step mirroring the single-write semantics.
Returns the reached state and the offending key of the thrown
unknown-property error, if any. -/
def hydrateLoop (cfg : ModelizeOptions) :
    MState → List (String × Value) → MState × Option String
  | st, [] => (st, none)
  | st, (k, v) :: rest =>
    if cfg.strict && !(Obj.hasKey st.src k) then (st, some k)
    else
      let oldValue := (Obj.get st.src k).getD (.prim .undef)
      hydrateLoop cfg
        { st with
          src := Obj.set st.src k v
          dirty := if oldValue = v then st.dirty else addDirty st.dirty k }
        rest

/-- `__hydrate`: run the key loop; on an error the operation aborts with the
partial state and no notification; otherwise optionally clear the dirty set
(after all keys, before notifying) and publish exactly one notification. -/
def hydrate (cfg : ModelizeOptions) (st : MState) (data : List (String × Value))
    (resetDirty : Bool) : MState × Option String × List Payload :=
  match hydrateLoop cfg st data with
  | (st', some k) => (st', some k, [])
  | (st', none) =>
    (if resetDirty then { st' with dirty := [] } else st', none, [.wrapper])

/-- `__reset`: clear the dirty set and publish one notification. -/
def resetOp (st : MState) : MState × List Payload :=
  ({ st with dirty := [] }, [.wrapper])

/-- The `__resetToInitial` key loop: for each own key of the initial
snapshot in order, assign a deep clone of the snapshot's value directly into
the underlying model (no strict-mode or dirty-diff logic). -/
def restoreLoop (fuel : Nat) : Heap → Obj → Obj → Option (Obj × Heap)
  | h, tgt, [] => some (tgt, h)
  | h, tgt, (k, v) :: rest =>
    match deepCloneVal fuel h v with
    | none => none
    | some (v', h') => restoreLoop fuel h' (Obj.set tgt k v') rest

/-- `__resetToInitial`: restore every snapshot key, clear the dirty set and
publish one notification. -/
def resetToInitial (st : MState) (fuel : Nat) : Option (MState × List Payload) :=
  match restoreLoop fuel st.heap st.src st.initial with
  | none => none
  | some (src', h') =>
    some ({ st with heap := h', src := src', dirty := [] }, [.wrapper])

/-- `__validate`: rerun `doValidate`, update the last-errors snapshot, throw
a `ModelizeValidationError` carrying the full error list when invalid, and
return the success sentinel `true` when valid. -/
def validateOp (cfg : ModelizeOptions) (st : MState) :
    MState × Except (List ValidationError) Bool :=
  let r := doValidate cfg st.heap st.src
  ({ st with lastErrors := r.2 }, if r.1 then .ok true else .error r.2)

/-- The observable result of the `get` proxy trap. -/
inductive GetResult where
  | dirtySet (d : List String)
  | boolVal (b : Bool)
  | sourceObj (o : Obj)
  | initialObj (o : Obj)
  | errorsVal (e : List ValidationError)
  | closure
  | passthrough (v : Option Value)
deriving DecidableEq, Repr

/-- The `get` proxy trap: the six derived accessors, then the five reserved
method names (whose read returns a freshly bound closure with no side
effect), then default passthrough to the target.  Only the `__isValid` read
has a state effect: it overwrites the last-errors snapshot with the fresh
validation result. -/
def getTrap (cfg : ModelizeOptions) (st : MState) (prop : String) :
    MState × GetResult :=
  if prop = "__dirty" then (st, .dirtySet st.dirty)
  else if prop = "__isDirty" then (st, .boolVal (!st.dirty.isEmpty))
  else if prop = "__isValid" then
    let r := doValidate cfg st.heap st.src
    ({ st with lastErrors := r.2 }, .boolVal r.1)
  else if prop = "__source" then (st, .sourceObj st.src)
  else if prop = "__initial" then (st, .initialObj st.initial)
  else if prop = "__errors" then (st, .errorsVal st.lastErrors)
  else if RESERVED_NAMES.contains prop then (st, .closure)
  else (st, .passthrough (Obj.get st.src prop))

/-- `modelize` construction: reject a source whose own keys collide with the
reserved names, take the deep-cloned initial snapshot of the source object's
fields, and start with an empty dirty set and an empty last-errors list. -/
def modelize (fuel : Nat) (h0 : Heap) (source : Obj) : Option MState :=
  if source.any (fun kv => RESERVED_NAMES.contains kv.1) then none
  else
    match cloneFieldsWith (deepCloneVal fuel) h0 source with
    | none => none
    | some (init, h1) => some ⟨h1, source, init, [], []⟩

/-! ## The pub/sub primitive (`createPubSub`)

Subscriber callbacks are modelled as identifiers; a `publish` is observed as
the list of `(callback, payload)` invocations it performs.  Each event's
subscriber collection is a JS `Set`: insertion-ordered and duplicate-free. -/

/-- The pub/sub state: event name to its subscriber set. -/
structure PubSub where
  subs : List (String × List Nat)
deriving DecidableEq, Repr

/-- Lookup of an event's subscriber set in the event map (the map's keys are
unique, so first match; `[]` when the event has no entry yet). -/
def subsList : List (String × List Nat) → String → List Nat
  | [], _ => []
  | (e, cbs) :: rest, ev => if e = ev then cbs else subsList rest ev

/-- `_subsFor(event)`: the subscriber set of an event. -/
def subsFor (ps : PubSub) (ev : String) : List Nat :=
  subsList ps.subs ev

/-- `publish(event, detail)`: invoke every current subscriber once with the
detail; observed as the invocation list. -/
def publishInv (ps : PubSub) (ev : String) (detail : Payload) :
    List (Nat × Payload) :=
  (subsFor ps ev).map (fun cb => (cb, detail))

/-- `_subsFor(event).add(cb)` on the event map: update the (unique) entry of
the event — a `Set.add` of a present member is a no-op — creating the entry
on first use. -/
def addSub : List (String × List Nat) → String → Nat → List (String × List Nat)
  | [], ev, cb => [(ev, [cb])]
  | (e, cbs) :: rest, ev, cb =>
    if e = ev then (e, if cb ∈ cbs then cbs else cbs ++ [cb]) :: rest
    else (e, cbs) :: addSub rest ev cb

/-- `_subsFor(event).delete(cb)` on the event map (the unsubscribe action). -/
def delSub : List (String × List Nat) → String → Nat → List (String × List Nat)
  | [], _, _ => []
  | (e, cbs) :: rest, ev, cb =>
    if e = ev then (e, cbs.filter (fun c => c ≠ cb)) :: rest
    else (e, cbs) :: delSub rest ev cb

/-- `subscribe(event, cb)`: register the callback against the event. -/
def pubsubSubscribe (ps : PubSub) (ev : String) (cb : Nat) : PubSub :=
  ⟨addSub ps.subs ev cb⟩

/-- The unsubscribe function returned by `subscribe`. -/
def pubsubUnsub (ps : PubSub) (ev : String) (cb : Nat) : PubSub :=
  ⟨delSub ps.subs ev cb⟩

/-- The wrapper's public `subscribe` entry point: first invoke the callback
once, synchronously, with the wrapper as argument, then register it against
the internal `"change"` event.  Observed as the immediate-invocation list
together with the updated pub/sub state. -/
def subscribeOp (ps : PubSub) (cb : Nat) : List (Nat × Payload) × PubSub :=
  ([(cb, .wrapper)], pubsubSubscribe ps "change" cb)

/-! ## Basic lemmas about object field access -/

theorem Obj.get_set_self (o : Obj) (k : String) (v : Value) :
    Obj.get (Obj.set o k v) k = some v := by
  induction o with
  | nil => simp [Obj.set, Obj.get]
  | cons kv rest ih =>
    obtain ⟨k', v'⟩ := kv
    by_cases h : k' = k
    · subst h; simp [Obj.set, Obj.get]
    · simp [Obj.set, Obj.get, h, ih]

theorem Obj.get_set_ne (o : Obj) (k : String) (v : Value) (k' : String)
    (h : k ≠ k') : Obj.get (Obj.set o k v) k' = Obj.get o k' := by
  induction o with
  | nil => simp [Obj.set, Obj.get, h]
  | cons kv rest ih =>
    obtain ⟨k₀, v₀⟩ := kv
    by_cases h0 : k₀ = k
    · subst h0; simp [Obj.set, Obj.get, h]
    · simp [Obj.set, Obj.get, h0, ih]

theorem Obj.hasKey_set_self (o : Obj) (k : String) (v : Value) :
    Obj.hasKey (Obj.set o k v) k = true := by
  induction o with
  | nil => simp [Obj.set, Obj.hasKey]
  | cons kv rest ih =>
    obtain ⟨k₀, v₀⟩ := kv
    by_cases h0 : k₀ = k
    · subst h0; simp [Obj.set, Obj.hasKey]
    · simp [Obj.set, Obj.hasKey, h0, ih]

theorem Obj.hasKey_set_mono (o : Obj) (k : String) (v : Value) (k' : String)
    (h : Obj.hasKey o k' = true) :
    Obj.hasKey (Obj.set o k v) k' = true := by
  induction o with
  | nil => simp [Obj.hasKey] at h
  | cons kv rest ih =>
    obtain ⟨k₀, v₀⟩ := kv
    by_cases h0 : k₀ = k
    · subst h0
      simpa [Obj.set, Obj.hasKey] using h
    · simp only [Obj.hasKey, Bool.or_eq_true, decide_eq_true_eq] at h
      rcases h with h | h
      · subst h
        simp [Obj.set, Obj.hasKey, h0]
      · simp [Obj.set, Obj.hasKey, h0, ih h]

theorem Obj.hasKey_set_of_hasKey (o : Obj) (k : String) (v : Value)
    (hk : Obj.hasKey o k = true) (k' : String) :
    Obj.hasKey (Obj.set o k v) k' = Obj.hasKey o k' := by
  induction o with
  | nil => simp [Obj.hasKey] at hk
  | cons kv rest ih =>
    obtain ⟨k₀, v₀⟩ := kv
    by_cases h0 : k₀ = k
    · subst h0; simp [Obj.set, Obj.hasKey]
    · simp only [Obj.hasKey, Bool.or_eq_true, decide_eq_true_eq] at hk
      rcases hk with hk | hk
      · exact absurd hk h0
      · simp [Obj.set, Obj.hasKey, h0, ih hk]

theorem Obj.hasKey_eq_true_iff_get (o : Obj) (k : String) :
    Obj.hasKey o k = true ↔ ∃ v, Obj.get o k = some v := by
  induction o with
  | nil => simp [Obj.hasKey, Obj.get]
  | cons kv rest ih =>
    obtain ⟨k₀, v₀⟩ := kv
    by_cases h0 : k₀ = k
    · subst h0; simp [Obj.hasKey, Obj.get]
    · simp [Obj.hasKey, Obj.get, h0, ih]

theorem Obj.keys_set_of_hasKey (o : Obj) (k : String) (v : Value)
    (hk : Obj.hasKey o k = true) :
    (Obj.set o k v).map Prod.fst = o.map Prod.fst := by
  induction o with
  | nil => simp [Obj.hasKey] at hk
  | cons kv rest ih =>
    obtain ⟨k₀, v₀⟩ := kv
    by_cases h0 : k₀ = k
    · subst h0; simp [Obj.set]
    · simp only [Obj.hasKey, Bool.or_eq_true, decide_eq_true_eq] at hk
      rcases hk with hk | hk
      · exact absurd hk h0
      · simp [Obj.set, h0, ih hk]

theorem Obj.get_of_mem_of_nodup (o : Obj) (k : String) (v : Value)
    (hnd : (o.map Prod.fst).Nodup) (hm : (k, v) ∈ o) :
    Obj.get o k = some v := by
  induction o with
  | nil => simp at hm
  | cons kv rest ih =>
    obtain ⟨k₀, v₀⟩ := kv
    simp only [List.map_cons, List.nodup_cons] at hnd
    rcases List.mem_cons.mp hm with hm | hm
    · injection hm with hk hv
      subst hk; subst hv
      simp [Obj.get]
    · have hk0 : k₀ ≠ k := by
        intro he
        exact hnd.1 (he ▸ (List.mem_map.mpr ⟨(k, v), hm, rfl⟩))
      simp [Obj.get, hk0, ih hnd.2 hm]

theorem Obj.hasKey_of_mem (o : Obj) (k : String) (v : Value)
    (hm : (k, v) ∈ o) : Obj.hasKey o k = true := by
  induction o with
  | nil => simp at hm
  | cons kv rest ih =>
    obtain ⟨k₀, v₀⟩ := kv
    rcases List.mem_cons.mp hm with hm | hm
    · injection hm with hk _
      simp [Obj.hasKey, hk]
    · simp [Obj.hasKey, ih hm]

theorem mem_addDirty_self (d : List String) (k : String) : k ∈ addDirty d k := by
  unfold addDirty
  by_cases h : k ∈ d
  · simp [h]
  · simp [h]

theorem mem_addDirty_of_mem (d : List String) (k x : String) (h : x ∈ d) :
    x ∈ addDirty d k := by
  unfold addDirty
  by_cases hk : k ∈ d
  · simpa [hk]
  · simp [hk, h]

/-! ## Concrete fixtures used by the witness theorems -/

/-- A small heap: one nested object at address 0. -/
def sampleHeap : Heap := [HCell.obj [("x", .prim (.num 1))]]

/-- A small model: one primitive field and one nested-container field. -/
def sampleSrc : Obj := [("a", .prim (.num 5)), ("b", .ref 0)]

/-- A wrapper state over `sampleSrc` (the snapshot is irrelevant to the
claims whose witnesses use this fixture). -/
def sampleState : MState := ⟨sampleHeap, sampleSrc, sampleSrc, [], []⟩

/-- Options with no validation configured, strict mode on (the default). -/
def strictOpts : ModelizeOptions := ⟨none, none, true⟩

/-- Options with no validation configured, strict mode off. -/
def looseOpts : ModelizeOptions := ⟨none, none, false⟩

/-! ## C1: single-write dirty tracking and notification -/

/-- C1: for every wrapper and non-reserved key `k` present on the underlying
model, a write of `v` through the proxy assigns `v` into the model and does
not throw; if the old value differs from `v` by strict inequality, `k` is
added to the dirty set and exactly one change notification carrying the
wrapper is published; if the old value equals `v`, the dirty set is
unchanged and no notification is published; hence a second write of the same
value leaves the dirty set unchanged and publishes nothing. -/
theorem c1_write_dirty_and_notify (cfg : ModelizeOptions) (st : MState)
    (k : String) (v : Value)
    (hres : RESERVED_NAMES.contains k = false)
    (hkey : Obj.hasKey st.src k = true) :
    (setProp cfg st k v).2.1 = none ∧
    (setProp cfg st k v).1.src = Obj.set st.src k v ∧
    ((Obj.get st.src k).getD (.prim .undef) ≠ v →
      (setProp cfg st k v).1.dirty = addDirty st.dirty k ∧
      (setProp cfg st k v).2.2 = [.wrapper]) ∧
    ((Obj.get st.src k).getD (.prim .undef) = v →
      (setProp cfg st k v).1.dirty = st.dirty ∧
      (setProp cfg st k v).2.2 = []) ∧
    (setProp cfg (setProp cfg st k v).1 k v).1.dirty =
      (setProp cfg st k v).1.dirty ∧
    (setProp cfg (setProp cfg st k v).1 k v).2.2 = [] := by
  have hres' : k ∉ RESERVED_NAMES := by simpa using hres
  by_cases hold : (Obj.get st.src k).getD (.prim .undef) = v
  · have h1 : setProp cfg st k v = ({ st with src := Obj.set st.src k v }, none, []) := by
      simp [setProp, hres', hkey, hold]
    have h2 : setProp cfg ({ st with src := Obj.set st.src k v } : MState) k v =
        ({ st with src := Obj.set (Obj.set st.src k v) k v }, none, []) := by
      simp [setProp, hres', Obj.hasKey_set_self, Obj.get_set_self]
    exact ⟨by simp [h1], by simp [h1], fun hc => absurd hold hc,
      fun _ => by simp [h1], by simp [h1, h2], by simp [h1, h2]⟩
  · have h1 : setProp cfg st k v =
        ({ st with src := Obj.set st.src k v, dirty := addDirty st.dirty k }, none,
          [.wrapper]) := by
      simp [setProp, hres', hkey, hold]
    have h2 : setProp cfg
        ({ st with src := Obj.set st.src k v, dirty := addDirty st.dirty k } : MState) k v =
        ((⟨st.heap, Obj.set (Obj.set st.src k v) k v, st.initial,
            addDirty st.dirty k, st.lastErrors⟩ : MState), none, []) := by
      simp [setProp, hres', Obj.hasKey_set_self, Obj.get_set_self]
    exact ⟨by simp [h1], by simp [h1], fun _ => by simp [h1],
      fun hc => absurd hc hold, by simp [h1, h2], by simp [h1, h2]⟩

/-- Witness for C1 at a concrete wrapper, key and changed value. -/
theorem c1_write_dirty_and_notify_witness :
    (setProp strictOpts sampleState "a" (.prim (.num 7))).2.1 = none ∧
    (setProp strictOpts sampleState "a" (.prim (.num 7))).1.src =
      Obj.set sampleState.src "a" (.prim (.num 7)) ∧
    ((Obj.get sampleState.src "a").getD (.prim .undef) ≠ .prim (.num 7) →
      (setProp strictOpts sampleState "a" (.prim (.num 7))).1.dirty =
        addDirty sampleState.dirty "a" ∧
      (setProp strictOpts sampleState "a" (.prim (.num 7))).2.2 = [.wrapper]) ∧
    ((Obj.get sampleState.src "a").getD (.prim .undef) = .prim (.num 7) →
      (setProp strictOpts sampleState "a" (.prim (.num 7))).1.dirty =
        sampleState.dirty ∧
      (setProp strictOpts sampleState "a" (.prim (.num 7))).2.2 = []) ∧
    (setProp strictOpts (setProp strictOpts sampleState "a" (.prim (.num 7))).1 "a"
        (.prim (.num 7))).1.dirty =
      (setProp strictOpts sampleState "a" (.prim (.num 7))).1.dirty ∧
    (setProp strictOpts (setProp strictOpts sampleState "a" (.prim (.num 7))).1 "a"
        (.prim (.num 7))).2.2 = [] :=
  c1_write_dirty_and_notify strictOpts sampleState "a" (.prim (.num 7))
    (by decide) (by decide)

/-! ## C9: failed single writes are atomic -/

/-- C9: a single property write that throws — because the key is reserved,
or because strict mode is on and the key is absent from the underlying
model — leaves the state (underlying model, dirty set, last-errors list)
unchanged and publishes no notification; both checks precede the old-value
read and the assignment in the trap. -/
theorem c9_failed_write_atomic (cfg : ModelizeOptions) (st : MState)
    (k : String) (v : Value) :
    (RESERVED_NAMES.contains k = true →
      setProp cfg st k v = (st, some (.reservedProp k), [])) ∧
    (RESERVED_NAMES.contains k = false → cfg.strict = true →
      Obj.hasKey st.src k = false →
      setProp cfg st k v = (st, some (.unknownProp k), [])) := by
  constructor
  · intro h
    have h' : k ∈ RESERVED_NAMES := by simpa using h
    simp [setProp, h']
  · intro h1 h2 h3
    have h1' : k ∉ RESERVED_NAMES := by simpa using h1
    simp [setProp, h1', h2, h3]

/-- Witness for C9: a reserved-name write and an unknown-key strict-mode
write at concrete inputs, both rejected atomically. -/
theorem c9_failed_write_atomic_witness :
    setProp strictOpts sampleState "__dirty" (.prim .null) =
      (sampleState, some (.reservedProp "__dirty"), []) ∧
    setProp strictOpts sampleState "nope" (.prim .null) =
      (sampleState, some (.unknownProp "nope"), []) :=
  ⟨(c9_failed_write_atomic strictOpts sampleState "__dirty" (.prim .null)).1 (by decide),
   (c9_failed_write_atomic strictOpts sampleState "nope" (.prim .null)).2 (by decide)
     (by decide) (by decide)⟩

/-! ## C7: delete semantics -/

/-- C7: in strict mode any delete attempt through the proxy throws a
strict-mode error with the underlying model (and all other state) unchanged;
with strict mode off the delete proceeds against the underlying model and
one change notification is published unconditionally on success, while the
dirty set is never modified by a delete. -/
theorem c7_delete_semantics (cfg : ModelizeOptions) (st : MState) (k : String) :
    (cfg.strict = true →
      deleteProperty cfg st k = (st, some (.strictDelete k), [])) ∧
    (cfg.strict = false →
      deleteProperty cfg st k =
        ({ st with src := Obj.del st.src k }, none, [.wrapper]) ∧
      (deleteProperty cfg st k).1.dirty = st.dirty) := by
  constructor
  · intro h; simp [deleteProperty, h]
  · intro h; simp [deleteProperty, h]

/-- Witness for C7: a strict-mode delete is rejected with the state intact,
and a non-strict delete removes the key, keeps the dirty set, notifies once. -/
theorem c7_delete_semantics_witness :
    deleteProperty strictOpts sampleState "a" =
      (sampleState, some (.strictDelete "a"), []) ∧
    deleteProperty looseOpts sampleState "a" =
      ({ sampleState with src := Obj.del sampleState.src "a" }, none, [.wrapper]) :=
  ⟨(c7_delete_semantics strictOpts sampleState "a").1 (by decide),
   ((c7_delete_semantics looseOpts sampleState "a").2 (by decide)).1⟩

/-! ## C10: reads are effect-free (except the `__isValid` error snapshot) -/

/-- C10: reading `__dirty`, `__isDirty`, `__source`, `__initial`, `__errors`
or any non-reserved passthrough key leaves the whole wrapper state (model,
dirty set, last-errors list) unchanged and publishes nothing; reading
`__isValid` changes only the last-errors snapshot, overwriting it with the
fresh validation result, and likewise leaves the model and the dirty set
unchanged and publishes nothing (the `get` trap never notifies). -/
theorem c10_reads_effect_free (cfg : ModelizeOptions) (st : MState) (p : String)
    (hp : RESERVED_NAMES.contains p = false) :
    getTrap cfg st "__dirty" = (st, .dirtySet st.dirty) ∧
    getTrap cfg st "__isDirty" = (st, .boolVal (!st.dirty.isEmpty)) ∧
    getTrap cfg st "__source" = (st, .sourceObj st.src) ∧
    getTrap cfg st "__initial" = (st, .initialObj st.initial) ∧
    getTrap cfg st "__errors" = (st, .errorsVal st.lastErrors) ∧
    getTrap cfg st p = (st, .passthrough (Obj.get st.src p)) ∧
    getTrap cfg st "__isValid" =
      ({ st with lastErrors := (doValidate cfg st.heap st.src).2 },
        .boolVal (doValidate cfg st.heap st.src).1) := by
  have hp' : p ∉ RESERVED_NAMES := by simpa using hp
  have h1 : ¬p = "__dirty" := fun h => hp' (by rw [h]; decide)
  have h2 : ¬p = "__isDirty" := fun h => hp' (by rw [h]; decide)
  have h3 : ¬p = "__isValid" := fun h => hp' (by rw [h]; decide)
  have h4 : ¬p = "__source" := fun h => hp' (by rw [h]; decide)
  have h5 : ¬p = "__initial" := fun h => hp' (by rw [h]; decide)
  have h6 : ¬p = "__errors" := fun h => hp' (by rw [h]; decide)
  refine ⟨by simp [getTrap], by simp [getTrap], by simp [getTrap], by simp [getTrap],
    by simp [getTrap], ?_, by simp [getTrap]⟩
  simp [getTrap, h1, h2, h3, h4, h5, h6, hp']

/-- Witness for C10 at a concrete wrapper and passthrough key. -/
theorem c10_reads_effect_free_witness :
    getTrap strictOpts sampleState "__dirty" =
      (sampleState, .dirtySet sampleState.dirty) ∧
    getTrap strictOpts sampleState "__isDirty" =
      (sampleState, .boolVal (!sampleState.dirty.isEmpty)) ∧
    getTrap strictOpts sampleState "__source" =
      (sampleState, .sourceObj sampleState.src) ∧
    getTrap strictOpts sampleState "__initial" =
      (sampleState, .initialObj sampleState.initial) ∧
    getTrap strictOpts sampleState "__errors" =
      (sampleState, .errorsVal sampleState.lastErrors) ∧
    getTrap strictOpts sampleState "a" =
      (sampleState, .passthrough (Obj.get sampleState.src "a")) ∧
    getTrap strictOpts sampleState "__isValid" =
      ({ sampleState with
          lastErrors := (doValidate strictOpts sampleState.heap sampleState.src).2 },
        .boolVal (doValidate strictOpts sampleState.heap sampleState.src).1) :=
  c10_reads_effect_free strictOpts sampleState "a" (by decide)

/-! ## C2: validation aggregation with no short-circuit -/

/-- C2: with both a schema and a custom predicate configured, one validation
pass — whether triggered through the `__isValid` read or the throwing
`__validate` operation — runs both stages: when the schema stage rejects the
current model (reporting at least one structured error record, as the engine
does on failure) and the custom predicate returns an error string on the
same model, the merged error list is exactly the translated schema-stage
errors followed by one root-path predicate entry, its length is at least 2,
and a pass is valid precisely when its merged error list is empty. -/
theorem c2_validation_aggregation (cfg : ModelizeOptions) (st : MState)
    (sv : Heap → Obj → Bool × List AjvError) (cv : Heap → Obj → Option String)
    (aerrs : List AjvError) (s : String)
    (hs : cfg.schema = some sv) (hv : cfg.validate = some cv)
    (hrej : sv st.heap st.src = (false, aerrs))
    (hne : aerrs ≠ [])
    (hcv : cv st.heap st.src = some s) :
    (doValidate cfg st.heap st.src).2 =
      aerrs.map ajvErrorToValidationError ++ [{ path := "/", message := s }] ∧
    2 ≤ (doValidate cfg st.heap st.src).2.length ∧
    (doValidate cfg st.heap st.src).1 = false ∧
    (∀ h' o', (doValidate cfg h' o').1 = true ↔ (doValidate cfg h' o').2 = []) ∧
    getTrap cfg st "__isValid" =
      ({ st with lastErrors := aerrs.map ajvErrorToValidationError ++
          [{ path := "/", message := s }] }, .boolVal false) ∧
    validateOp cfg st =
      ({ st with lastErrors := aerrs.map ajvErrorToValidationError ++
          [{ path := "/", message := s }] },
        .error (aerrs.map ajvErrorToValidationError ++
          [{ path := "/", message := s }])) := by
  have hlen : 1 ≤ aerrs.length := List.length_pos.mpr hne
  have hd : doValidate cfg st.heap st.src =
      (false, aerrs.map ajvErrorToValidationError ++ [{ path := "/", message := s }]) := by
    rcases aerrs with _ | ⟨e, rest⟩
    · exact absurd rfl hne
    · simp [doValidate, hs, hv, hrej, hcv]
  refine ⟨by rw [hd], ?_, by rw [hd], ?_, ?_, ?_⟩
  · rw [hd]
    simp only [List.length_append, List.length_map, List.length_singleton]
    omega
  · intro h' o'
    simp [doValidate, List.isEmpty_iff]
  · simp [getTrap, hd]
  · simp [validateOp, hd]

/-- The fixture schema stage for the C2 witness: always rejects with one
structured error record. -/
def schemaRejects : Heap → Obj → Bool × List AjvError :=
  fun _ _ => (false, [{ instancePath := "/age", message := "must be at least 0" }])

/-- The fixture custom predicate for the C2 witness: always returns an
error-message string. -/
def predicateRejects : Heap → Obj → Option String :=
  fun _ _ => some "model rejected"

/-- Options configuring both validation stages, for the C2 witness. -/
def bothRejectOpts : ModelizeOptions := ⟨some schemaRejects, some predicateRejects, true⟩

/-- Witness for C2 at a wrapper whose schema stage and custom predicate both
reject. -/
theorem c2_validation_aggregation_witness :
    (doValidate bothRejectOpts sampleState.heap sampleState.src).2 =
      [{ instancePath := "/age", message := "must be at least 0" }].map
        ajvErrorToValidationError ++ [{ path := "/", message := "model rejected" }] ∧
    2 ≤ (doValidate bothRejectOpts sampleState.heap sampleState.src).2.length ∧
    (doValidate bothRejectOpts sampleState.heap sampleState.src).1 = false ∧
    (∀ h' o', (doValidate bothRejectOpts h' o').1 = true ↔
      (doValidate bothRejectOpts h' o').2 = []) ∧
    getTrap bothRejectOpts sampleState "__isValid" =
      ({ sampleState with
          lastErrors := [{ instancePath := "/age", message := "must be at least 0" }].map
            ajvErrorToValidationError ++ [{ path := "/", message := "model rejected" }] },
        .boolVal false) ∧
    validateOp bothRejectOpts sampleState =
      ({ sampleState with
          lastErrors := [{ instancePath := "/age", message := "must be at least 0" }].map
            ajvErrorToValidationError ++ [{ path := "/", message := "model rejected" }] },
        .error ([{ instancePath := "/age", message := "must be at least 0" }].map
          ajvErrorToValidationError ++ [{ path := "/", message := "model rejected" }])) :=
  c2_validation_aggregation bothRejectOpts sampleState schemaRejects predicateRejects
    [{ instancePath := "/age", message := "must be at least 0" }] "model rejected"
    rfl rfl rfl (by decide) rfl

/-! ## C3: validation with nothing configured

The claim states that `__validate` fails with a distinct "cannot validate —
no schema and no predicate configured" error when neither stage is
configured.  The code has no such error: `doValidate` with nothing
configured produces an empty error list, so `__validate` returns the
success sentinel `true` without throwing — exactly what the repository's own
test suite asserts ("__validate returns true when no validation
configured").  The claim is refuted below and the amended behaviour is
proved. -/

/-- C3 counterexample: on a wrapper constructed with neither a schema nor a
custom predicate, calling the throwing validate operation does not fail at
all — it returns the success sentinel `true`. -/
theorem c3_counterexample :
    (validateOp strictOpts sampleState).2 = Except.ok true := rfl

/-- C3 (amended): with neither a schema nor a custom predicate configured,
the throwing validate operation and the validity-boolean read both treat
the model as trivially valid: `__validate` returns `true` without raising
any error and `__isValid` reads `true`, each leaving an empty last-errors
list. -/
theorem c3_unconfigured_trivially_valid (cfg : ModelizeOptions) (st : MState)
    (hs : cfg.schema = none) (hv : cfg.validate = none) :
    validateOp cfg st = ({ st with lastErrors := [] }, .ok true) ∧
    getTrap cfg st "__isValid" = ({ st with lastErrors := [] }, .boolVal true) := by
  have hd : doValidate cfg st.heap st.src = (true, []) := by
    simp [doValidate, hs, hv]
  constructor
  · simp [validateOp, hd]
  · simp [getTrap, hd]

/-- Witness for the amended C3 at a concrete unconfigured wrapper. -/
theorem c3_unconfigured_trivially_valid_witness :
    validateOp strictOpts sampleState =
      ({ sampleState with lastErrors := [] }, .ok true) ∧
    getTrap strictOpts sampleState "__isValid" =
      ({ sampleState with lastErrors := [] }, .boolVal true) :=
  c3_unconfigured_trivially_valid strictOpts sampleState rfl rfl

/-! ## The `__hydrate` key loop -/

/-- When the strict check passes for every mapping key — strict mode off, or
every key already on the model — the hydrate loop throws nothing. -/
theorem hydrateLoop_ok (cfg : ModelizeOptions) (data : List (String × Value)) :
    ∀ st : MState,
    (cfg.strict = false ∨ ∀ k ∈ data.map Prod.fst, Obj.hasKey st.src k = true) →
    (hydrateLoop cfg st data).2 = none := by
  induction data with
  | nil => intro st _; simp [hydrateLoop]
  | cons kv rest ih =>
    intro st h
    obtain ⟨k, v⟩ := kv
    have hcond : (cfg.strict && !(Obj.hasKey st.src k)) = false := by
      rcases h with h | h
      · simp [h]
      · simp [h k (by simp)]
    have hnext : cfg.strict = false ∨ ∀ k' ∈ rest.map Prod.fst,
        Obj.hasKey (Obj.set st.src k v) k' = true := by
      rcases h with h | h
      · exact Or.inl h
      · exact Or.inr fun k' hk' => Obj.hasKey_set_mono _ _ _ _ (h k' (by simp [hk']))
    simp only [hydrateLoop, hcond, Bool.false_eq_true, if_false]
    exact ih _ hnext

/-- Splitting the hydrate loop at a successfully processed prefix. -/
theorem hydrateLoop_append_ok (cfg : ModelizeOptions)
    (pre tail : List (String × Value)) :
    ∀ st st₁ : MState, hydrateLoop cfg st pre = (st₁, none) →
    hydrateLoop cfg st (pre ++ tail) = hydrateLoop cfg st₁ tail := by
  induction pre with
  | nil =>
    intro st st₁ h
    simp only [hydrateLoop] at h
    injection h with h1 _
    subst h1
    simp
  | cons kv rest ih =>
    intro st st₁ h
    obtain ⟨k, v⟩ := kv
    by_cases hc : (cfg.strict && !(Obj.hasKey st.src k)) = true
    · simp [hydrateLoop, hc] at h
    · have hc' : (cfg.strict && !(Obj.hasKey st.src k)) = false := by
        simpa using hc
      simp only [hydrateLoop, hc', Bool.false_eq_true, if_false] at h
      simp only [List.cons_append, hydrateLoop, hc', Bool.false_eq_true, if_false]
      exact ih _ _ h

/-- The strict-mode hydrate loop over a prefix whose keys all exist on the
model: it throws nothing, preserves the model's key set, does not touch keys
outside the prefix, only grows the dirty set, and gives every prefix key its
newly assigned value, marking it dirty when the value changed. -/
theorem hydrateLoop_strict_prefix (cfg : ModelizeOptions)
    (pre : List (String × Value)) (hstrict : cfg.strict = true) :
    ∀ st : MState,
    (∀ k ∈ pre.map Prod.fst, Obj.hasKey st.src k = true) →
    (pre.map Prod.fst).Nodup →
    (hydrateLoop cfg st pre).2 = none ∧
    (∀ k', Obj.hasKey (hydrateLoop cfg st pre).1.src k' = Obj.hasKey st.src k') ∧
    (∀ k', k' ∉ pre.map Prod.fst →
      Obj.get (hydrateLoop cfg st pre).1.src k' = Obj.get st.src k') ∧
    (∀ x, x ∈ st.dirty → x ∈ (hydrateLoop cfg st pre).1.dirty) ∧
    (∀ k₂ v₂, (k₂, v₂) ∈ pre →
      Obj.get (hydrateLoop cfg st pre).1.src k₂ = some v₂ ∧
      ((Obj.get st.src k₂).getD (.prim .undef) ≠ v₂ →
        k₂ ∈ (hydrateLoop cfg st pre).1.dirty)) := by
  induction pre with
  | nil =>
    intro st _ _
    exact ⟨rfl, fun _ => rfl, fun _ _ => rfl, fun _ h => h,
      fun k₂ v₂ hkv => absurd hkv (by simp)⟩
  | cons kv rest ih =>
    intro st hpre hnd
    obtain ⟨k, v⟩ := kv
    have hk : Obj.hasKey st.src k = true := hpre k (by simp)
    have hc' : (cfg.strict && !(Obj.hasKey st.src k)) = false := by simp [hk]
    have hknotin : k ∉ rest.map Prod.fst := by
      simp only [List.map_cons, List.nodup_cons] at hnd
      exact hnd.1
    have hndr : (rest.map Prod.fst).Nodup := by
      simp only [List.map_cons, List.nodup_cons] at hnd
      exact hnd.2
    set st₁ : MState := ⟨st.heap, Obj.set st.src k v, st.initial,
      if (Obj.get st.src k).getD (.prim .undef) = v then st.dirty
        else addDirty st.dirty k, st.lastErrors⟩ with hst₁
    have hpre₁ : ∀ k' ∈ rest.map Prod.fst, Obj.hasKey st₁.src k' = true := by
      intro k' hk'
      show Obj.hasKey (Obj.set st.src k v) k' = true
      rw [Obj.hasKey_set_of_hasKey st.src k v hk k']
      exact hpre k' (by simp [hk'])
    obtain ⟨ihe, ihHas, ihFrame, ihMono, ihAll⟩ := ih st₁ hpre₁ hndr
    have hunf : hydrateLoop cfg st ((k, v) :: rest) = hydrateLoop cfg st₁ rest := by
      simp only [hydrateLoop, hc', Bool.false_eq_true, if_false]
    rw [hunf]
    have hdmono : ∀ x, x ∈ st.dirty → x ∈ st₁.dirty := by
      intro x hx
      show x ∈ (if (Obj.get st.src k).getD (.prim .undef) = v then st.dirty
        else addDirty st.dirty k)
      by_cases he : (Obj.get st.src k).getD (.prim .undef) = v
      · simpa [he] using hx
      · simp only [he, if_false]
        exact mem_addDirty_of_mem _ _ _ hx
    refine ⟨ihe, ?_, ?_, ?_, ?_⟩
    · intro k'
      rw [ihHas k']
      exact Obj.hasKey_set_of_hasKey st.src k v hk k'
    · intro k' hk'
      have hne : k ≠ k' := fun he => hk' (by simp [← he])
      have hnr : k' ∉ rest.map Prod.fst := fun hm => hk' (by simp [hm])
      rw [ihFrame k' hnr]
      exact Obj.get_set_ne st.src k v k' hne
    · intro x hx
      exact ihMono x (hdmono x hx)
    · intro k₂ v₂ hkv
      rcases List.mem_cons.mp hkv with hkv | hkv
      · injection hkv with hk1 hk2
        rw [hk1, hk2]
      -- head entry: value freshly assigned, dirty when changed
        constructor
        · rw [ihFrame k hknotin]
          exact Obj.get_set_self st.src k v
        · intro hch
          refine ihMono k ?_
          show k ∈ (if (Obj.get st.src k).getD (.prim .undef) = v then st.dirty
            else addDirty st.dirty k)
          rw [if_neg hch]
          exact mem_addDirty_self _ _
      · have hne : k ≠ k₂ := by
          intro he
          exact hknotin (he ▸ List.mem_map.mpr ⟨(k₂, v₂), hkv, rfl⟩)
        have hget₁ : Obj.get st₁.src k₂ = Obj.get st.src k₂ :=
          Obj.get_set_ne st.src k v k₂ hne
        obtain ⟨ha, hb⟩ := ihAll k₂ v₂ hkv
        exact ⟨ha, fun hch => hb (by rw [hget₁]; exact hch)⟩

/-! ## C6: bulk update notifies exactly once -/

/-- C6: when every mapping key passes the strict-mode check, `__hydrate`
throws nothing and publishes exactly one change notification per call,
regardless of how many keys the mapping contains (including none) and of
whether any value changed; when `resetDirty` is requested the dirty set of
the resulting state is empty (cleared after all keys were processed,
before the single notification). -/
theorem c6_hydrate_notifies_once (cfg : ModelizeOptions) (st : MState)
    (data : List (String × Value)) (resetDirty : Bool)
    (h : cfg.strict = false ∨ ∀ k ∈ data.map Prod.fst, Obj.hasKey st.src k = true) :
    (hydrate cfg st data resetDirty).2.1 = none ∧
    (hydrate cfg st data resetDirty).2.2 = [.wrapper] ∧
    (resetDirty = true → (hydrate cfg st data resetDirty).1.dirty = []) := by
  have hok := hydrateLoop_ok cfg data st h
  rcases hh : hydrateLoop cfg st data with ⟨st', e⟩
  rw [hh] at hok
  simp only at hok
  subst hok
  refine ⟨by simp [hydrate, hh], by simp [hydrate, hh], ?_⟩
  intro hrd
  subst hrd
  simp [hydrate, hh]

/-- Witness for C6: hydrating the empty mapping with `resetDirty` notifies
exactly once and clears the dirty set. -/
theorem c6_hydrate_notifies_once_witness :
    (hydrate strictOpts sampleState [] true).2.1 = none ∧
    (hydrate strictOpts sampleState [] true).2.2 = [.wrapper] ∧
    (true = true → (hydrate strictOpts sampleState [] true).1.dirty = []) :=
  c6_hydrate_notifies_once strictOpts sampleState [] true
    (Or.inr (by simp))

/-! ## C4: strict-mode bulk update aborts without rollback -/

/-- C4: in strict mode, a bulk update whose mapping contains a key absent
from the model throws an unknown-property error naming that key when it
reaches it and aborts with no notification; the keys processed before the
failing key keep their newly assigned values (no rollback) and, whenever
the assigned value differed from the old one, remain added to the dirty
set. -/
theorem c4_hydrate_strict_abort (cfg : ModelizeOptions) (st : MState)
    (pre : List (String × Value)) (k0 : String) (v0 : Value)
    (rest : List (String × Value)) (resetDirty : Bool)
    (hstrict : cfg.strict = true)
    (hpre : ∀ k ∈ pre.map Prod.fst, Obj.hasKey st.src k = true)
    (hnd : (pre.map Prod.fst).Nodup)
    (hk0 : Obj.hasKey st.src k0 = false) :
    hydrate cfg st (pre ++ (k0, v0) :: rest) resetDirty =
      ((hydrateLoop cfg st pre).1, some k0, []) ∧
    (∀ k₂ v₂, (k₂, v₂) ∈ pre →
      Obj.get (hydrateLoop cfg st pre).1.src k₂ = some v₂ ∧
      ((Obj.get st.src k₂).getD (.prim .undef) ≠ v₂ →
        k₂ ∈ (hydrateLoop cfg st pre).1.dirty)) := by
  obtain ⟨he, hHas, _, _, hAll⟩ :=
    hydrateLoop_strict_prefix cfg pre hstrict st hpre hnd
  rcases hmid : hydrateLoop cfg st pre with ⟨stMid, e⟩
  rw [hmid] at he hHas hAll
  simp only at he
  subst he
  have hk0' : Obj.hasKey stMid.src k0 = false := by
    rw [hHas k0]
    exact hk0
  have h1 : hydrateLoop cfg st (pre ++ (k0, v0) :: rest) = (stMid, some k0) := by
    rw [hydrateLoop_append_ok cfg pre ((k0, v0) :: rest) st stMid hmid]
    simp [hydrateLoop, hstrict, hk0']
  exact ⟨by simp [hydrate, h1, hmid], by simpa [hmid] using hAll⟩

/-- Witness for C4: a two-key strict bulk update whose second key is
unknown aborts after assigning and dirtying the first key, with no
notification. -/
theorem c4_hydrate_strict_abort_witness :
    hydrate strictOpts sampleState
        ([("a", .prim (.num 9))] ++ ("zzz", .prim .null) :: []) false =
      ((hydrateLoop strictOpts sampleState [("a", .prim (.num 9))]).1, some "zzz", []) ∧
    (∀ k₂ v₂, (k₂, v₂) ∈ [(("a" : String), Value.prim (.num 9))] →
      Obj.get (hydrateLoop strictOpts sampleState [("a", .prim (.num 9))]).1.src k₂ =
        some v₂ ∧
      ((Obj.get sampleState.src k₂).getD (.prim .undef) ≠ v₂ →
        k₂ ∈ (hydrateLoop strictOpts sampleState [("a", .prim (.num 9))]).1.dirty)) :=
  c4_hydrate_strict_abort strictOpts sampleState [("a", .prim (.num 9))] "zzz"
    (.prim .null) [] false rfl (by decide) (by decide) (by decide)

/-! ## C8: the public subscribe contract -/

/-- Count of a callback after a `Set.add` into a duplicate-free set. -/
theorem count_mem_addSub (l : List (String × List Nat)) (ev : String) (cb : Nat) :
    ∀ hnd : (subsList l ev).Nodup,
    (subsList (addSub l ev cb) ev).count cb = 1 := by
  induction l with
  | nil =>
    intro _
    simp [subsList, addSub]
  | cons p rest ih =>
    intro hnd
    obtain ⟨e, cbs⟩ := p
    by_cases he : e = ev
    · subst he
      simp only [subsList, if_pos rfl] at hnd
      by_cases hm : cb ∈ cbs
      · have h1 : cbs.count cb ≤ 1 := List.nodup_iff_count_le_one.mp hnd cb
        have h2 : 0 < cbs.count cb := List.count_pos_iff.mpr hm
        simp only [addSub, subsList, if_pos rfl, hm, if_pos]
        omega
      · have h0 : cbs.count cb = 0 := List.count_eq_zero.mpr hm
        simp only [addSub, subsList, if_pos rfl, hm, if_neg, List.count_append]
        simp [h0]
    · simp only [subsList, if_neg he] at hnd
      simp only [addSub, if_neg he, subsList]
      exact ih hnd

/-- After the unsubscribe action the callback no longer occurs. -/
theorem count_delSub (l : List (String × List Nat)) (ev : String) (cb : Nat) :
    (subsList (delSub l ev cb) ev).count cb = 0 := by
  induction l with
  | nil => simp [subsList, delSub]
  | cons p rest ih =>
    obtain ⟨e, cbs⟩ := p
    by_cases he : e = ev
    · subst he
      have hz : (cbs.filter (fun c => c ≠ cb)).count cb = 0 := by
        rw [List.count_eq_zero]
        intro hm
        have := (List.mem_filter.mp hm).2
        simp at this
      simpa [delSub, subsList] using hz
    · simp only [delSub, if_neg he, subsList]
      exact ih

/-- Counting an invocation of a specific callback in a publish. -/
theorem count_publishInv (ps : PubSub) (ev : String) (detail : Payload) (cb : Nat) :
    (publishInv ps ev detail).count (cb, detail) = (subsFor ps ev).count cb := by
  unfold publishInv
  generalize subsFor ps ev = l
  induction l with
  | nil => rfl
  | cons c rest ih =>
    by_cases hc : c = cb
    · subst hc
      simp [List.count_cons, ih]
    · simp [List.count_cons, ih, hc]

/-- C8: the public subscribe entry point first invokes the callback exactly
once, synchronously, with the wrapper itself as the payload, then registers
it against the internal "change" event and returns an unsubscribe function;
after subscribing, each change publish (as every mutating operation
performs) invokes the callback exactly once more, and after running the
returned unsubscribe, subsequent publishes no longer invoke it. -/
theorem c8_subscribe_contract (ps : PubSub) (cb : Nat)
    (hnd : (subsFor ps "change").Nodup) :
    (subscribeOp ps cb).1 = [(cb, .wrapper)] ∧
    (publishInv (subscribeOp ps cb).2 "change" .wrapper).count (cb, .wrapper) = 1 ∧
    (publishInv (pubsubUnsub (subscribeOp ps cb).2 "change" cb) "change"
      .wrapper).count (cb, .wrapper) = 0 := by
  refine ⟨rfl, ?_, ?_⟩
  · rw [count_publishInv]
    exact count_mem_addSub ps.subs "change" cb hnd
  · rw [count_publishInv]
    exact count_delSub _ "change" cb

/-- Witness for C8 on a fresh pub/sub hub and a concrete callback. -/
theorem c8_subscribe_contract_witness :
    (subscribeOp ⟨[]⟩ 0).1 = [(0, .wrapper)] ∧
    (publishInv (subscribeOp ⟨[]⟩ 0).2 "change" .wrapper).count (0, .wrapper) = 1 ∧
    (publishInv (pubsubUnsub (subscribeOp ⟨[]⟩ 0).2 "change" 0) "change"
      .wrapper).count (0, .wrapper) = 0 :=
  c8_subscribe_contract ⟨[]⟩ 0 (by simp [subsFor, subsList])

/-! ## Deep-clone snapshot isolation (towards C5)

The key facts about `deepCloneVal` and `abstractVal`: cloning only appends
fresh cells to the heap; abstraction is stable under heap extension; the
clone of a value abstracts to the same tree as its original, and that
abstraction only depends on the freshly allocated region, so it survives any
later mutation of the pre-existing cells.  A value whose abstraction is
defined can always be cloned with the same fuel. -/

/-- A value cloner that only allocates: the output heap extends the input. -/
def AppendOnly (c : Heap → Value → Option (Value × Heap)) : Prop :=
  ∀ h v v' h', c h v = some (v', h') → ∃ ext, h' = h ++ ext

/-- An abstraction that is stable under extending the heap. -/
def ExtStable (A : Heap → Value → Option Tree) : Prop :=
  ∀ h ext v t, A h v = some t → A (h ++ ext) v = some t

/-- A cloner correct for an abstraction: the clone abstracts to the original
value's tree in any heap that agrees with the clone's output heap on the
freshly allocated region (mutation of older cells cannot affect it). -/
def CloneAbs (c : Heap → Value → Option (Value × Heap))
    (A : Heap → Value → Option Tree) : Prop :=
  ∀ h v v' h₁ t, c h v = some (v', h₁) → A h v = some t →
    ∀ h'', (∀ a, h.length ≤ a → a < h₁.length → h''[a]? = h₁[a]?) →
    A h'' v' = some t

/-- An abstraction that guarantees the cloner succeeds. -/
def AbsClone (A : Heap → Value → Option Tree)
    (c : Heap → Value → Option (Value × Heap)) : Prop :=
  ∀ h v t, A h v = some t → ∃ v' h', c h v = some (v', h')

theorem cloneFieldsWith_append (c : Heap → Value → Option (Value × Heap))
    (hc : AppendOnly c) :
    ∀ (o : Obj) (h : Heap) (o' : Obj) (h' : Heap),
    cloneFieldsWith c h o = some (o', h') → ∃ ext, h' = h ++ ext := by
  intro o
  induction o with
  | nil =>
    intro h o' h' hcl
    simp only [cloneFieldsWith, Option.some.injEq, Prod.mk.injEq] at hcl
    exact ⟨[], by rw [← hcl.2]; simp⟩
  | cons kv rest ih =>
    intro h o' h' hcl
    obtain ⟨k, v⟩ := kv
    cases hv : c h v with
    | none => simp [cloneFieldsWith, hv] at hcl
    | some p =>
      obtain ⟨v1, h1⟩ := p
      cases hr : cloneFieldsWith c h1 rest with
      | none => simp [cloneFieldsWith, hv, hr] at hcl
      | some q =>
        obtain ⟨rest1, h2⟩ := q
        simp only [cloneFieldsWith, hv, hr, Option.some.injEq, Prod.mk.injEq] at hcl
        obtain ⟨e1, he1⟩ := hc h v v1 h1 hv
        obtain ⟨e2, he2⟩ := ih h1 rest1 h2 hr
        exact ⟨e1 ++ e2, by rw [← hcl.2, he2, he1, List.append_assoc]⟩

theorem cloneElemsWith_append (c : Heap → Value → Option (Value × Heap))
    (hc : AppendOnly c) :
    ∀ (l : List Value) (h : Heap) (l' : List Value) (h' : Heap),
    cloneElemsWith c h l = some (l', h') → ∃ ext, h' = h ++ ext := by
  intro l
  induction l with
  | nil =>
    intro h l' h' hcl
    simp only [cloneElemsWith, Option.some.injEq, Prod.mk.injEq] at hcl
    exact ⟨[], by rw [← hcl.2]; simp⟩
  | cons v rest ih =>
    intro h l' h' hcl
    cases hv : c h v with
    | none => simp [cloneElemsWith, hv] at hcl
    | some p =>
      obtain ⟨v1, h1⟩ := p
      cases hr : cloneElemsWith c h1 rest with
      | none => simp [cloneElemsWith, hv, hr] at hcl
      | some q =>
        obtain ⟨rest1, h2⟩ := q
        simp only [cloneElemsWith, hv, hr, Option.some.injEq, Prod.mk.injEq] at hcl
        obtain ⟨e1, he1⟩ := hc h v v1 h1 hv
        obtain ⟨e2, he2⟩ := ih h1 rest1 h2 hr
        exact ⟨e1 ++ e2, by rw [← hcl.2, he2, he1, List.append_assoc]⟩

theorem deepCloneVal_append : ∀ fuel, AppendOnly (deepCloneVal fuel) := by
  intro fuel
  induction fuel with
  | zero =>
    intro h v v' h' hcl
    simp [deepCloneVal] at hcl
  | succ f ih =>
    intro h v v' h' hcl
    cases v with
    | prim p =>
      simp only [deepCloneVal, Option.some.injEq, Prod.mk.injEq] at hcl
      exact ⟨[], by rw [← hcl.2]; simp⟩
    | ref a =>
      cases hcell : h[a]? with
      | none => simp [deepCloneVal, hcell] at hcl
      | some cell =>
        cases cell with
        | obj o =>
          cases hcf : cloneFieldsWith (deepCloneVal f) h o with
          | none => simp [deepCloneVal, hcell, hcf] at hcl
          | some p =>
            obtain ⟨o1, h1⟩ := p
            simp only [deepCloneVal, hcell, hcf, Option.some.injEq, Prod.mk.injEq] at hcl
            obtain ⟨e1, he1⟩ := cloneFieldsWith_append (deepCloneVal f) ih o h o1 h1 hcf
            exact ⟨e1 ++ [HCell.obj o1], by rw [← hcl.2, he1, List.append_assoc]⟩
        | arr l =>
          cases hcf : cloneElemsWith (deepCloneVal f) h l with
          | none => simp [deepCloneVal, hcell, hcf] at hcl
          | some p =>
            obtain ⟨l1, h1⟩ := p
            simp only [deepCloneVal, hcell, hcf, Option.some.injEq, Prod.mk.injEq] at hcl
            obtain ⟨e1, he1⟩ := cloneElemsWith_append (deepCloneVal f) ih l h l1 h1 hcf
            exact ⟨e1 ++ [HCell.arr l1], by rw [← hcl.2, he1, List.append_assoc]⟩

/-- Pointwise transport of a field-wise abstraction walk. -/
theorem traverseFields_congr (f g : Value → Option Tree)
    (hfg : ∀ v t, f v = some t → g v = some t) :
    ∀ (o : Obj) (ts : List (String × Tree)),
    traverseFields f o = some ts → traverseFields g o = some ts := by
  intro o
  induction o with
  | nil => intro ts h; simpa [traverseFields] using h
  | cons kv rest ih =>
    intro ts h
    obtain ⟨k, v⟩ := kv
    cases hv : f v with
    | none => simp [traverseFields, hv] at h
    | some t =>
      cases hr : traverseFields f rest with
      | none => simp [traverseFields, hv, hr] at h
      | some ts' =>
        simp only [traverseFields, hv, hr, Option.some.injEq] at h
        simp [traverseFields, hfg v t hv, ih ts' hr, ← h]

/-- Pointwise transport of an element-wise abstraction walk. -/
theorem traverseElems_congr (f g : Value → Option Tree)
    (hfg : ∀ v t, f v = some t → g v = some t) :
    ∀ (l : List Value) (ts : List Tree),
    traverseElems f l = some ts → traverseElems g l = some ts := by
  intro l
  induction l with
  | nil => intro ts h; simpa [traverseElems] using h
  | cons v rest ih =>
    intro ts h
    cases hv : f v with
    | none => simp [traverseElems, hv] at h
    | some t =>
      cases hr : traverseElems f rest with
      | none => simp [traverseElems, hv, hr] at h
      | some ts' =>
        simp only [traverseElems, hv, hr, Option.some.injEq] at h
        simp [traverseElems, hfg v t hv, ih ts' hr, ← h]

theorem abstractVal_ext : ∀ fuel, ExtStable (abstractVal fuel) := by
  intro fuel
  induction fuel with
  | zero =>
    intro h ext v t ha
    simp [abstractVal] at ha
  | succ f ih =>
    intro h ext v t ha
    cases v with
    | prim p => simpa [abstractVal] using ha
    | ref a =>
      cases hcell : h[a]? with
      | none => simp [abstractVal, hcell] at ha
      | some cell =>
        have hlt : a < h.length := (List.getElem?_eq_some.mp hcell).1
        have hcell' : (h ++ ext)[a]? = some cell := by
          rw [List.getElem?_append_left hlt]
          exact hcell
        cases cell with
        | obj o =>
          simp only [abstractVal, hcell, Option.map_eq_some'] at ha
          obtain ⟨ts, hts, ht⟩ := ha
          have hts' := traverseFields_congr (abstractVal f h) (abstractVal f (h ++ ext))
            (fun v t hv => ih h ext v t hv) o ts hts
          simp [abstractVal, hcell', hts', ht]
        | arr l =>
          simp only [abstractVal, hcell, Option.map_eq_some'] at ha
          obtain ⟨ts, hts, ht⟩ := ha
          have hts' := traverseElems_congr (abstractVal f h) (abstractVal f (h ++ ext))
            (fun v t hv => ih h ext v t hv) l ts hts
          simp [abstractVal, hcell', hts', ht]

theorem cloneFieldsWith_cloneAbs (c : Heap → Value → Option (Value × Heap))
    (A : Heap → Value → Option Tree)
    (hap : AppendOnly c) (hca : CloneAbs c A) (hext : ExtStable A) :
    ∀ (o : Obj) (h : Heap) (o' : Obj) (h₁ : Heap) (ts : List (String × Tree)),
    cloneFieldsWith c h o = some (o', h₁) →
    traverseFields (A h) o = some ts →
    ∀ h'', (∀ a, h.length ≤ a → a < h₁.length → h''[a]? = h₁[a]?) →
    traverseFields (A h'') o' = some ts := by
  intro o
  induction o with
  | nil =>
    intro h o' h₁ ts hcl htr h'' _
    simp only [cloneFieldsWith, Option.some.injEq, Prod.mk.injEq] at hcl
    simp only [traverseFields, Option.some.injEq] at htr
    rw [← hcl.1, ← htr]
    rfl
  | cons kv rest ih =>
    intro h o' h₁ ts hcl htr h'' hfr
    obtain ⟨k, v⟩ := kv
    cases hv : c h v with
    | none => simp [cloneFieldsWith, hv] at hcl
    | some p =>
      obtain ⟨v1, hA⟩ := p
      cases hr : cloneFieldsWith c hA rest with
      | none => simp [cloneFieldsWith, hv, hr] at hcl
      | some q =>
        obtain ⟨rest1, h₂⟩ := q
        simp only [cloneFieldsWith, hv, hr, Option.some.injEq, Prod.mk.injEq] at hcl
        cases hav : A h v with
        | none => simp [traverseFields, hav] at htr
        | some t =>
          cases har : traverseFields (A h) rest with
          | none => simp [traverseFields, hav, har] at htr
          | some ts' =>
            simp only [traverseFields, hav, har, Option.some.injEq] at htr
            obtain ⟨e1, he1⟩ := hap h v v1 hA hv
            obtain ⟨e2, he2⟩ := cloneFieldsWith_append c hap rest hA rest1 h₂ hr
            have hlenA : h.length ≤ hA.length := by rw [he1]; simp
            have hlen₂ : hA.length ≤ h₁.length := by rw [← hcl.2, he2]; simp
            have hhead : A h'' v1 = some t := by
              refine hca h v v1 hA t hv hav h'' ?_
              intro a ha1 ha2
              have h₁a : h₁[a]? = hA[a]? := by
                rw [← hcl.2, he2]
                exact List.getElem?_append_left ha2
              rw [← h₁a]
              exact hfr a ha1 (lt_of_lt_of_le ha2 hlen₂)
            have htr' : traverseFields (A hA) rest = some ts' := by
              rw [he1]
              exact traverseFields_congr (A h) (A (h ++ e1))
                (fun w u hw => hext h e1 w u hw) rest ts' har
            have htail : traverseFields (A h'') rest1 = some ts' := by
              refine ih hA rest1 h₁ ts' ?_ htr' h'' ?_
              · rw [← hcl.2]; exact hr
              · intro a ha1 ha2
                exact hfr a (le_trans hlenA ha1) ha2
            rw [← hcl.1, ← htr]
            simp [traverseFields, hhead, htail]

theorem cloneElemsWith_cloneAbs (c : Heap → Value → Option (Value × Heap))
    (A : Heap → Value → Option Tree)
    (hap : AppendOnly c) (hca : CloneAbs c A) (hext : ExtStable A) :
    ∀ (l : List Value) (h : Heap) (l' : List Value) (h₁ : Heap) (ts : List Tree),
    cloneElemsWith c h l = some (l', h₁) →
    traverseElems (A h) l = some ts →
    ∀ h'', (∀ a, h.length ≤ a → a < h₁.length → h''[a]? = h₁[a]?) →
    traverseElems (A h'') l' = some ts := by
  intro l
  induction l with
  | nil =>
    intro h l' h₁ ts hcl htr h'' _
    simp only [cloneElemsWith, Option.some.injEq, Prod.mk.injEq] at hcl
    simp only [traverseElems, Option.some.injEq] at htr
    rw [← hcl.1, ← htr]
    rfl
  | cons v rest ih =>
    intro h l' h₁ ts hcl htr h'' hfr
    cases hv : c h v with
    | none => simp [cloneElemsWith, hv] at hcl
    | some p =>
      obtain ⟨v1, hA⟩ := p
      cases hr : cloneElemsWith c hA rest with
      | none => simp [cloneElemsWith, hv, hr] at hcl
      | some q =>
        obtain ⟨rest1, h₂⟩ := q
        simp only [cloneElemsWith, hv, hr, Option.some.injEq, Prod.mk.injEq] at hcl
        cases hav : A h v with
        | none => simp [traverseElems, hav] at htr
        | some t =>
          cases har : traverseElems (A h) rest with
          | none => simp [traverseElems, hav, har] at htr
          | some ts' =>
            simp only [traverseElems, hav, har, Option.some.injEq] at htr
            obtain ⟨e1, he1⟩ := hap h v v1 hA hv
            obtain ⟨e2, he2⟩ := cloneElemsWith_append c hap rest hA rest1 h₂ hr
            have hlenA : h.length ≤ hA.length := by rw [he1]; simp
            have hlen₂ : hA.length ≤ h₁.length := by rw [← hcl.2, he2]; simp
            have hhead : A h'' v1 = some t := by
              refine hca h v v1 hA t hv hav h'' ?_
              intro a ha1 ha2
              have h₁a : h₁[a]? = hA[a]? := by
                rw [← hcl.2, he2]
                exact List.getElem?_append_left ha2
              rw [← h₁a]
              exact hfr a ha1 (lt_of_lt_of_le ha2 hlen₂)
            have htr' : traverseElems (A hA) rest = some ts' := by
              rw [he1]
              exact traverseElems_congr (A h) (A (h ++ e1))
                (fun w u hw => hext h e1 w u hw) rest ts' har
            have htail : traverseElems (A h'') rest1 = some ts' := by
              refine ih hA rest1 h₁ ts' ?_ htr' h'' ?_
              · rw [← hcl.2]; exact hr
              · intro a ha1 ha2
                exact hfr a (le_trans hlenA ha1) ha2
            rw [← hcl.1, ← htr]
            simp [traverseElems, hhead, htail]

theorem deepCloneVal_cloneAbs :
    ∀ fuel, CloneAbs (deepCloneVal fuel) (abstractVal fuel) := by
  intro fuel
  induction fuel with
  | zero =>
    intro h v v' h₁ t hcl
    simp [deepCloneVal] at hcl
  | succ f ih =>
    intro h v v' h₁ t hcl ha h'' hfr
    cases v with
    | prim p =>
      simp only [deepCloneVal, Option.some.injEq, Prod.mk.injEq] at hcl
      rw [← hcl.1]
      simpa [abstractVal] using ha
    | ref a =>
      cases hcell : h[a]? with
      | none => simp [deepCloneVal, hcell] at hcl
      | some cell =>
        cases cell with
        | obj o =>
          cases hcf : cloneFieldsWith (deepCloneVal f) h o with
          | none => simp [deepCloneVal, hcell, hcf] at hcl
          | some p =>
            obtain ⟨o1, hA⟩ := p
            simp only [deepCloneVal, hcell, hcf, Option.some.injEq, Prod.mk.injEq] at hcl
            simp only [abstractVal, hcell, Option.map_eq_some'] at ha
            obtain ⟨ts, hts, ht⟩ := ha
            obtain ⟨e1, he1⟩ :=
              cloneFieldsWith_append (deepCloneVal f) (deepCloneVal_append f) o h o1 hA hcf
            have hlenA : h.length ≤ hA.length := by rw [he1]; simp
            have hlt : hA.length < h₁.length := by rw [← hcl.2]; simp
            have href : h''[hA.length]? = some (HCell.obj o1) := by
              rw [hfr hA.length hlenA hlt, ← hcl.2]
              exact List.getElem?_concat_length hA (HCell.obj o1)
            have hfields : traverseFields (abstractVal f h'') o1 = some ts := by
              refine cloneFieldsWith_cloneAbs (deepCloneVal f) (abstractVal f)
                (deepCloneVal_append f) ih (abstractVal_ext f) o h o1 hA ts hcf hts h'' ?_
              intro b hb1 hb2
              calc h''[b]? = h₁[b]? := hfr b hb1 (lt_of_lt_of_le hb2 (le_of_lt hlt))
                _ = hA[b]? := by rw [← hcl.2]; exact List.getElem?_append_left hb2
            rw [← hcl.1, ← ht]
            simp [abstractVal, href, hfields]
        | arr l =>
          cases hcf : cloneElemsWith (deepCloneVal f) h l with
          | none => simp [deepCloneVal, hcell, hcf] at hcl
          | some p =>
            obtain ⟨l1, hA⟩ := p
            simp only [deepCloneVal, hcell, hcf, Option.some.injEq, Prod.mk.injEq] at hcl
            simp only [abstractVal, hcell, Option.map_eq_some'] at ha
            obtain ⟨ts, hts, ht⟩ := ha
            obtain ⟨e1, he1⟩ :=
              cloneElemsWith_append (deepCloneVal f) (deepCloneVal_append f) l h l1 hA hcf
            have hlenA : h.length ≤ hA.length := by rw [he1]; simp
            have hlt : hA.length < h₁.length := by rw [← hcl.2]; simp
            have href : h''[hA.length]? = some (HCell.arr l1) := by
              rw [hfr hA.length hlenA hlt, ← hcl.2]
              exact List.getElem?_concat_length hA (HCell.arr l1)
            have helems : traverseElems (abstractVal f h'') l1 = some ts := by
              refine cloneElemsWith_cloneAbs (deepCloneVal f) (abstractVal f)
                (deepCloneVal_append f) ih (abstractVal_ext f) l h l1 hA ts hcf hts h'' ?_
              intro b hb1 hb2
              calc h''[b]? = h₁[b]? := hfr b hb1 (lt_of_lt_of_le hb2 (le_of_lt hlt))
                _ = hA[b]? := by rw [← hcl.2]; exact List.getElem?_append_left hb2
            rw [← hcl.1, ← ht]
            simp [abstractVal, href, helems]

theorem traverseFields_absClone (c : Heap → Value → Option (Value × Heap))
    (A : Heap → Value → Option Tree)
    (hac : AbsClone A c) (hap : AppendOnly c) (hext : ExtStable A) :
    ∀ (o : Obj) (h : Heap) (ts : List (String × Tree)),
    traverseFields (A h) o = some ts →
    ∃ o' h', cloneFieldsWith c h o = some (o', h') := by
  intro o
  induction o with
  | nil => intro h ts _; exact ⟨[], h, rfl⟩
  | cons kv rest ih =>
    intro h ts htr
    obtain ⟨k, v⟩ := kv
    cases hav : A h v with
    | none => simp [traverseFields, hav] at htr
    | some t =>
      cases har : traverseFields (A h) rest with
      | none => simp [traverseFields, hav, har] at htr
      | some ts' =>
        obtain ⟨v1, hA, hcv⟩ := hac h v t hav
        obtain ⟨e1, he1⟩ := hap h v v1 hA hcv
        have har' : traverseFields (A hA) rest = some ts' := by
          rw [he1]
          exact traverseFields_congr (A h) (A (h ++ e1))
            (fun w u hw => hext h e1 w u hw) rest ts' har
        obtain ⟨rest1, h₂, hcr⟩ := ih hA ts' har'
        exact ⟨(k, v1) :: rest1, h₂, by simp [cloneFieldsWith, hcv, hcr]⟩

theorem traverseElems_absClone (c : Heap → Value → Option (Value × Heap))
    (A : Heap → Value → Option Tree)
    (hac : AbsClone A c) (hap : AppendOnly c) (hext : ExtStable A) :
    ∀ (l : List Value) (h : Heap) (ts : List Tree),
    traverseElems (A h) l = some ts →
    ∃ l' h', cloneElemsWith c h l = some (l', h') := by
  intro l
  induction l with
  | nil => intro h ts _; exact ⟨[], h, rfl⟩
  | cons v rest ih =>
    intro h ts htr
    cases hav : A h v with
    | none => simp [traverseElems, hav] at htr
    | some t =>
      cases har : traverseElems (A h) rest with
      | none => simp [traverseElems, hav, har] at htr
      | some ts' =>
        obtain ⟨v1, hA, hcv⟩ := hac h v t hav
        obtain ⟨e1, he1⟩ := hap h v v1 hA hcv
        have har' : traverseElems (A hA) rest = some ts' := by
          rw [he1]
          exact traverseElems_congr (A h) (A (h ++ e1))
            (fun w u hw => hext h e1 w u hw) rest ts' har
        obtain ⟨rest1, h₂, hcr⟩ := ih hA ts' har'
        exact ⟨v1 :: rest1, h₂, by simp [cloneElemsWith, hcv, hcr]⟩

theorem abstractVal_absClone :
    ∀ fuel, AbsClone (abstractVal fuel) (deepCloneVal fuel) := by
  intro fuel
  induction fuel with
  | zero =>
    intro h v t ha
    simp [abstractVal] at ha
  | succ f ih =>
    intro h v t ha
    cases v with
    | prim p => exact ⟨.prim p, h, rfl⟩
    | ref a =>
      cases hcell : h[a]? with
      | none => simp [abstractVal, hcell] at ha
      | some cell =>
        cases cell with
        | obj o =>
          simp only [abstractVal, hcell, Option.map_eq_some'] at ha
          obtain ⟨ts, hts, _⟩ := ha
          obtain ⟨o1, hA, hcf⟩ := traverseFields_absClone (deepCloneVal f) (abstractVal f)
            ih (deepCloneVal_append f) (abstractVal_ext f) o h ts hts
          exact ⟨.ref hA.length, hA ++ [.obj o1], by simp [deepCloneVal, hcell, hcf]⟩
        | arr l =>
          simp only [abstractVal, hcell, Option.map_eq_some'] at ha
          obtain ⟨ts, hts, _⟩ := ha
          obtain ⟨l1, hA, hcf⟩ := traverseElems_absClone (deepCloneVal f) (abstractVal f)
            ih (deepCloneVal_append f) (abstractVal_ext f) l h ts hts
          exact ⟨.ref hA.length, hA ++ [.arr l1], by simp [deepCloneVal, hcell, hcf]⟩

/-- A field reached by `Obj.get` in a fully abstracted object abstracts. -/
theorem traverseFields_get (f : Value → Option Tree) :
    ∀ (o : Obj) (ts : List (String × Tree)) (k : String) (v : Value),
    traverseFields f o = some ts → Obj.get o k = some v → ∃ t, f v = some t := by
  intro o
  induction o with
  | nil => intro ts k v _ hg; simp [Obj.get] at hg
  | cons kv rest ih =>
    intro ts k v htr hg
    obtain ⟨k0, v0⟩ := kv
    cases hv : f v0 with
    | none => simp [traverseFields, hv] at htr
    | some t =>
      cases hr : traverseFields f rest with
      | none => simp [traverseFields, hv, hr] at htr
      | some ts' =>
        by_cases hk : k0 = k
        · simp only [Obj.get, if_pos hk, Option.some.injEq] at hg
          exact ⟨t, hg ▸ hv⟩
        · simp only [Obj.get, if_neg hk] at hg
          exact ih ts' k v hr hg

/-- The clone of an object has the same key list. -/
theorem cloneFieldsWith_keys (c : Heap → Value → Option (Value × Heap)) :
    ∀ (o : Obj) (h : Heap) (o' : Obj) (h' : Heap),
    cloneFieldsWith c h o = some (o', h') → o'.map Prod.fst = o.map Prod.fst := by
  intro o
  induction o with
  | nil =>
    intro h o' h' hcl
    simp only [cloneFieldsWith, Option.some.injEq, Prod.mk.injEq] at hcl
    rw [← hcl.1]
  | cons kv rest ih =>
    intro h o' h' hcl
    obtain ⟨k, v⟩ := kv
    cases hv : c h v with
    | none => simp [cloneFieldsWith, hv] at hcl
    | some p =>
      obtain ⟨v1, h1⟩ := p
      cases hr : cloneFieldsWith c h1 rest with
      | none => simp [cloneFieldsWith, hv, hr] at hcl
      | some q =>
        obtain ⟨rest1, h2⟩ := q
        simp only [cloneFieldsWith, hv, hr, Option.some.injEq, Prod.mk.injEq] at hcl
        rw [← hcl.1]
        simp [ih h1 rest1 h2 hr]

theorem Obj.hasKey_iff_mem_keys (o : Obj) (k : String) :
    Obj.hasKey o k = true ↔ k ∈ o.map Prod.fst := by
  induction o with
  | nil => simp [Obj.hasKey]
  | cons kv rest ih =>
    obtain ⟨k0, v0⟩ := kv
    by_cases h0 : k0 = k
    · subst h0; simp [Obj.hasKey]
    · constructor
      · intro h
        simp only [Obj.hasKey, Bool.or_eq_true, decide_eq_true_eq] at h
        rcases h with h | h
        · exact absurd h h0
        · simp [ih.mp h]
      · intro h
        simp only [List.map_cons, List.mem_cons] at h
        rcases h with h | h
        · exact absurd h.symm h0
        · simp [Obj.hasKey, ih.mpr h]

/-- Per-key content of a field-wise clone: each original field's clone
abstracts to the original field's tree, and that abstraction only depends on
the clone's fresh heap region. -/
theorem cloneFieldsWith_get (c : Heap → Value → Option (Value × Heap))
    (A : Heap → Value → Option Tree)
    (hap : AppendOnly c) (hca : CloneAbs c A) (hext : ExtStable A) :
    ∀ (o : Obj) (h : Heap) (o' : Obj) (h₁ : Heap) (ts : List (String × Tree)),
    cloneFieldsWith c h o = some (o', h₁) →
    traverseFields (A h) o = some ts →
    ∀ k v, Obj.get o k = some v →
    ∃ v' t, Obj.get o' k = some v' ∧ A h v = some t ∧
      (∀ h'', (∀ a, h.length ≤ a → a < h₁.length → h''[a]? = h₁[a]?) →
        A h'' v' = some t) := by
  intro o
  induction o with
  | nil => intro h o' h₁ ts _ _ k v hg; simp [Obj.get] at hg
  | cons kv rest ih =>
    intro h o' h₁ ts hcl htr k v hg
    obtain ⟨k0, v0⟩ := kv
    cases hv : c h v0 with
    | none => simp [cloneFieldsWith, hv] at hcl
    | some p =>
      obtain ⟨v1, hA⟩ := p
      cases hr : cloneFieldsWith c hA rest with
      | none => simp [cloneFieldsWith, hv, hr] at hcl
      | some q =>
        obtain ⟨rest1, h₂⟩ := q
        simp only [cloneFieldsWith, hv, hr, Option.some.injEq, Prod.mk.injEq] at hcl
        cases hav : A h v0 with
        | none => simp [traverseFields, hav] at htr
        | some t0 =>
          cases har : traverseFields (A h) rest with
          | none => simp [traverseFields, hav, har] at htr
          | some ts' =>
            obtain ⟨e1, he1⟩ := hap h v0 v1 hA hv
            obtain ⟨e2, he2⟩ := cloneFieldsWith_append c hap rest hA rest1 h₂ hr
            have hlenA : h.length ≤ hA.length := by rw [he1]; simp
            have hlen₂ : hA.length ≤ h₁.length := by rw [← hcl.2, he2]; simp
            by_cases hk : k0 = k
            · simp only [Obj.get, if_pos hk, Option.some.injEq] at hg
              refine ⟨v1, t0, ?_, hg ▸ hav, ?_⟩
              · rw [← hcl.1]
                simp [Obj.get, hk]
              · intro h'' hfr
                refine hca h v0 v1 hA t0 hv hav h'' ?_
                intro a ha1 ha2
                have hAa : h₁[a]? = hA[a]? := by
                  rw [← hcl.2, he2]
                  exact List.getElem?_append_left ha2
                rw [← hAa]
                exact hfr a ha1 (lt_of_lt_of_le ha2 hlen₂)
            · simp only [Obj.get, if_neg hk] at hg
              have har' : traverseFields (A hA) rest = some ts' := by
                rw [he1]
                exact traverseFields_congr (A h) (A (h ++ e1))
                  (fun w u hw => hext h e1 w u hw) rest ts' har
              have hclr : cloneFieldsWith c hA rest = some (rest1, h₁) := by
                rw [← hcl.2]; exact hr
              obtain ⟨v', t, hget', habsA, hfr'⟩ := ih hA rest1 h₁ ts' hclr har' k v hg
              obtain ⟨t₀, ht₀⟩ := traverseFields_get (A h) rest ts' k v har hg
              have htA : A hA v = some t₀ := by
                rw [he1]
                exact hext h e1 v t₀ ht₀
              have htt : t = t₀ := by
                rw [habsA] at htA
                exact Option.some.inj htA
              refine ⟨v', t₀, ?_, ht₀, ?_⟩
              · rw [← hcl.1]
                simpa [Obj.get, if_neg hk] using hget'
              · intro h'' hfr
                have := hfr' h'' (fun a ha1 ha2 => hfr a (le_trans hlenA ha1) ha2)
                rw [htt] at this
                exact this

/-- The restore loop over the snapshot's fields: it succeeds whenever each
snapshot value abstracts in the current heap, it only appends to the heap,
it leaves keys outside the snapshot untouched, and it assigns each snapshot
key a deep clone abstracting to the snapshot value's tree. -/
theorem restoreLoop_correct (f : Nat) :
    ∀ (fields : Obj) (g : Heap) (tgt : Obj),
    (fields.map Prod.fst).Nodup →
    (∀ k v, (k, v) ∈ fields → ∃ t, abstractVal f g v = some t) →
    ∃ tgt' g', restoreLoop f g tgt fields = some (tgt', g') ∧
      (∃ ext, g' = g ++ ext) ∧
      (∀ k, k ∉ fields.map Prod.fst → Obj.get tgt' k = Obj.get tgt k) ∧
      (∀ k v t, Obj.get fields k = some v → abstractVal f g v = some t →
        ∃ v', Obj.get tgt' k = some v' ∧ abstractVal f g' v' = some t) := by
  intro fields
  induction fields with
  | nil =>
    intro g tgt _ _
    exact ⟨tgt, g, rfl, ⟨[], by simp⟩, fun _ _ => rfl,
      fun k v t hg _ => by simp [Obj.get] at hg⟩
  | cons kv rest ih =>
    intro g tgt hnd habs
    obtain ⟨k0, v0⟩ := kv
    obtain ⟨t0, ht0⟩ := habs k0 v0 (by simp)
    obtain ⟨v1, g1, hcl⟩ := abstractVal_absClone f g v0 t0 ht0
    obtain ⟨e1, he1⟩ := deepCloneVal_append f g v0 v1 g1 hcl
    have hk0nr : k0 ∉ rest.map Prod.fst := by
      simp only [List.map_cons, List.nodup_cons] at hnd
      exact hnd.1
    have hndr : (rest.map Prod.fst).Nodup := by
      simp only [List.map_cons, List.nodup_cons] at hnd
      exact hnd.2
    have habsr : ∀ k v, (k, v) ∈ rest → ∃ t, abstractVal f g1 v = some t := by
      intro k v hm
      obtain ⟨t, ht⟩ := habs k v (by simp [hm])
      exact ⟨t, by rw [he1]; exact abstractVal_ext f g e1 v t ht⟩
    obtain ⟨tgt', g', hrl, ⟨e2, he2⟩, hunt, hget⟩ := ih g1 (Obj.set tgt k0 v1) hndr habsr
    refine ⟨tgt', g', ?_, ⟨e1 ++ e2, by rw [he2, he1, List.append_assoc]⟩, ?_, ?_⟩
    · simp [restoreLoop, hcl, hrl]
    · intro k hk
      have hk0 : k0 ≠ k := fun he => hk (by simp [← he])
      have hkr : k ∉ rest.map Prod.fst := fun hm => hk (by simp [hm])
      rw [hunt k hkr]
      exact Obj.get_set_ne tgt k0 v1 k hk0
    · intro k v t hgf habsv
      by_cases hk : k0 = k
      · simp only [Obj.get, if_pos hk, Option.some.injEq] at hgf
        have htt : t0 = t := by
          rw [hgf] at ht0
          rw [ht0] at habsv
          exact Option.some.inj habsv
        have hkr : k ∉ rest.map Prod.fst := by rw [← hk]; exact hk0nr
        have hgetk : Obj.get tgt' k = some v1 := by
          rw [hunt k hkr, ← hk]
          exact Obj.get_set_self tgt k0 v1
        refine ⟨v1, hgetk, ?_⟩
        have habs1 : abstractVal f g' v1 = some t0 := by
          refine deepCloneVal_cloneAbs f g v0 v1 g1 t0 hcl ht0 g' ?_
          intro a _ ha2
          rw [he2]
          exact List.getElem?_append_left ha2
        rw [← htt]
        exact habs1
      · simp only [Obj.get, if_neg hk] at hgf
        have habsv1 : abstractVal f g1 v = some t := by
          rw [he1]
          exact abstractVal_ext f g e1 v t habsv
        exact hget k v t hgf habsv1

/-! ## C5: restore-to-initial round trip under snapshot isolation -/

/-- C5: construct a wrapper over `source` (taking the deep-cloned initial
snapshot), then mutate the wrapper state arbitrarily — the live model may be
reassigned wholesale, pre-existing heap cells (the containers reachable from
the live model) may be mutated in place, fresh cells may be allocated, the
dirty set and error list may change — as long as the snapshot's own fresh
heap region is untouched, which is everything wrapper clients can do short
of reaching into `__initial` itself.  Then `__resetToInitial` succeeds,
publishes exactly one notification, clears the dirty set, leaves keys absent
from the snapshot untouched, and reading any key present at construction
yields a value deeply equal (same abstraction tree) to that key's value at
construction time.  The fuel hypotheses say the source object's reachable
structure is finite, acyclic and within the fuel — true of any live JS
object graph. -/
theorem c5_reset_to_initial_round_trip
    (fuel : Nat) (h0 : Heap) (source : Obj) (st0 : MState)
    (hmk : modelize fuel h0 source = some st0)
    (hnd : (source.map Prod.fst).Nodup)
    (habs : (traverseFields (abstractVal fuel h0) source).isSome = true)
    (st' : MState)
    (hinit : st'.initial = st0.initial)
    (hframe : ∀ a, a < st0.heap.length → h0.length ≤ a → st'.heap[a]? = st0.heap[a]?) :
    ∃ st'', resetToInitial st' fuel = some (st'', [.wrapper]) ∧
      st''.dirty = [] ∧
      (∀ k, Obj.hasKey source k = false → Obj.get st''.src k = Obj.get st'.src k) ∧
      (∀ k v0, Obj.get source k = some v0 →
        ∃ v' t, Obj.get st''.src k = some v' ∧
          abstractVal fuel st''.heap v' = some t ∧
          abstractVal fuel h0 v0 = some t) := by
  unfold modelize at hmk
  by_cases hcol : (source.any fun kv => RESERVED_NAMES.contains kv.1) = true
  · rw [if_pos hcol] at hmk
    exact Option.noConfusion hmk
  · rw [if_neg hcol] at hmk
    cases hclone : cloneFieldsWith (deepCloneVal fuel) h0 source with
    | none => rw [hclone] at hmk; simp at hmk
    | some p =>
      obtain ⟨init, h1⟩ := p
      rw [hclone] at hmk
      simp only [Option.some.injEq] at hmk
      subst hmk
      have hinit' : st'.initial = init := hinit
      have hframe' : ∀ a, h0.length ≤ a → a < h1.length → st'.heap[a]? = h1[a]? :=
        fun a hle hlt => hframe a hlt hle
      obtain ⟨ts0, hts0⟩ := Option.isSome_iff_exists.mp habs
      have hkeys : init.map Prod.fst = source.map Prod.fst :=
        cloneFieldsWith_keys (deepCloneVal fuel) source h0 init h1 hclone
      have hndInit : (init.map Prod.fst).Nodup := by rw [hkeys]; exact hnd
      have habsInit : ∀ k v, (k, v) ∈ init →
          ∃ t, abstractVal fuel st'.heap v = some t := by
        intro k v hm
        have hgi : Obj.get init k = some v := Obj.get_of_mem_of_nodup init k v hndInit hm
        have hkmem : k ∈ source.map Prod.fst := by
          rw [← hkeys]
          exact List.mem_map.mpr ⟨(k, v), hm, rfl⟩
        obtain ⟨v0, hv0⟩ := (Obj.hasKey_eq_true_iff_get source k).mp
          ((Obj.hasKey_iff_mem_keys source k).mpr hkmem)
        obtain ⟨v₁, t, hgi', _, hfrC⟩ := cloneFieldsWith_get (deepCloneVal fuel)
          (abstractVal fuel) (deepCloneVal_append fuel) (deepCloneVal_cloneAbs fuel)
          (abstractVal_ext fuel) source h0 init h1 ts0 hclone hts0 k v0 hv0
        have hvv : v₁ = v := by
          rw [hgi'] at hgi
          exact Option.some.inj hgi
        exact ⟨t, hvv ▸ hfrC st'.heap hframe'⟩
      obtain ⟨tgt', g', hrl, _, hunt, hget⟩ :=
        restoreLoop_correct fuel init st'.heap st'.src hndInit habsInit
      refine ⟨{ st' with heap := g', src := tgt', dirty := [] }, ?_, rfl, ?_, ?_⟩
      · simp [resetToInitial, hinit', hrl]
      · intro k hks
        have hkm : k ∉ init.map Prod.fst := by
          rw [hkeys]
          intro hm
          have := (Obj.hasKey_iff_mem_keys source k).mpr hm
          rw [this] at hks
          exact Bool.noConfusion hks
        exact hunt k hkm
      · intro k v0 hv0
        obtain ⟨v₁, t, hgi', habs0, hfrC⟩ := cloneFieldsWith_get (deepCloneVal fuel)
          (abstractVal fuel) (deepCloneVal_append fuel) (deepCloneVal_cloneAbs fuel)
          (abstractVal_ext fuel) source h0 init h1 ts0 hclone hts0 k v0 hv0
        obtain ⟨v', hget', habs'⟩ := hget k v₁ t hgi' (hfrC st'.heap hframe')
        exact ⟨v', t, hget', habs', habs0⟩

/-- The wrapper state `modelize` builds over `sampleSrc` in `sampleHeap`:
the nested container at address 0 has been deep-cloned to address 1 and the
snapshot's `"b"` field references the clone. -/
def constructedState : MState :=
  ⟨[HCell.obj [("x", .prim (.num 1))], HCell.obj [("x", .prim (.num 1))]],
    sampleSrc, [("a", .prim (.num 5)), ("b", .ref 1)], [], []⟩

/-- `constructedState` after later activity: the live nested container at
address 0 was mutated in place (`x` is now 99), the top-level `"a"` was
overwritten, a key `"c"` was added, and the dirty set is non-empty — the
snapshot region (address 1) is untouched. -/
def mutatedState : MState :=
  ⟨[HCell.obj [("x", .prim (.num 99))], HCell.obj [("x", .prim (.num 1))]],
    [("a", .prim (.num 7)), ("b", .ref 0), ("c", .prim .null)],
    [("a", .prim (.num 5)), ("b", .ref 1)], ["a"], []⟩

/-- Witness for C5: the construction, in-place mutation and restore of a
concrete wrapper with a nested container. -/
theorem c5_reset_to_initial_round_trip_witness :
    ∃ st'', resetToInitial mutatedState 4 = some (st'', [.wrapper]) ∧
      st''.dirty = [] ∧
      (∀ k, Obj.hasKey sampleSrc k = false →
        Obj.get st''.src k = Obj.get mutatedState.src k) ∧
      (∀ k v0, Obj.get sampleSrc k = some v0 →
        ∃ v' t, Obj.get st''.src k = some v' ∧
          abstractVal 4 st''.heap v' = some t ∧
          abstractVal 4 sampleHeap v0 = some t) :=
  c5_reset_to_initial_round_trip 4 sampleHeap sampleSrc constructedState
    (by decide) (by decide) (by decide) mutatedState rfl (by decide)

end Modelize
